import Mathlib

/-!
Shallow embedding of the data reshaping performed by `getServerSideProps` in
`src/pages/account/statistics.js`: the profile-completion progress, the link
filtering and click total, and the normalization of `data.profile.daily` into
a dense 30-day series.

Date strings: the JS code keys everything by
`new Date(x).toISOString().split('T')[0]`, i.e. the UTC calendar day of a time
value.  The `"YYYY-MM-DD"` rendering is injective on calendar days, so keys
are modelled by their UTC day numbers (days since 1970-01-01).

Timezone: `getDate`/`setDate` read and write the local calendar.  The host
timezone is modelled as a constant UTC offset `ofs` in milliseconds (a zone
with no DST transition in the relevant range, e.g. the UTC zone servers
typically run in), so ECMAScript's LocalTZA is the same constant before and
after `setDate` adjusts the day of the month.
-/

/-- Milliseconds per day, the unit of ECMAScript `Date` day arithmetic. -/
def msPerDay : Int := 86400000

/-- ECMAScript `Day(t)`: the UTC calendar-day number `floor(t / msPerDay)` of a
time value `t` (ms since the epoch).  `toISOString().split('T')[0]` renders
exactly this day, so it models the `"YYYY-MM-DD"` key.  `Int` division is
Euclidean division, which is floor division for this positive divisor. -/
def utcDay (t : Int) : Int := t / msPerDay

/-- Day of the month (1..31) of a calendar-day number (days since 1970-01-01)
in the proleptic Gregorian calendar, as ECMAScript `DateFromTime`: standard
civil-from-days arithmetic over 400-year eras. -/
def dateFromDay (z0 : Int) : Int :=
  let z := z0 + 719468
  let era := z / 146097
  let doe := z - era * 146097
  let yoe := (doe - doe / 1460 + doe / 36524 - doe / 146096) / 365
  let doy := doe - (365 * yoe + yoe / 4 - yoe / 100)
  let mp := (5 * doy + 2) / 153
  doy - (153 * mp + 2) / 5 + 1

/-- `date.getDate()` for time value `t` in the local zone at constant UTC
offset `ofs` ms: the day of the month of the local time value `t + ofs`. -/
def jsGetDate (ofs t : Int) : Int := dateFromDay (utcDay (t + ofs))

/-- `date.setDate(v)` for time value `t` in the local zone at constant UTC
offset `ofs` ms, returning the new time value: the day-of-month field of the
local time value is set to `v` (an out-of-range `v` rolls the month over,
which on the linear local timeline is a shift by whole days), then the result
is converted back to UTC. -/
def jsSetDate (ofs t v : Int) : Int :=
  t + (v - dateFromDay (utcDay (t + ofs))) * msPerDay

/-- `last30Days` from the source: for each `index` in `0..29`, copy the
current date, call `setDate(getDate() - index)`, take the `"YYYY-MM-DD"`
(UTC day) key of the result, then `.reverse()` the 30 keys. -/
def last30Days (ofs now : Int) : List Int :=
  ((List.range 30).map fun (index : Nat) =>
    utcDay (jsSetDate ofs now (jsGetDate ofs now - (index : Int)))).reverse

/-- An element of `data.profile.daily` as the normalization consumes it: the
`views` count and the result of `new Date(stat.date)` — `some t` for a date
that parses to the valid time value `t`, `none` for an Invalid Date
(malformed or missing `date`). -/
structure RawStat where
  date : Option Int
  views : Int
  deriving DecidableEq

/-- A value stored in `dailyStatsMap`: either an original sample object from
`data.profile.daily`, or a placeholder `{ views: 0, date }` created by the
fill loop. -/
inductive MapVal where
  | sample (s : RawStat)
  | placeholder (views : Int) (date : Int)
  deriving DecidableEq

/-- The `views` field of a stored value. -/
def MapVal.views : MapVal → Int
  | .sample s => s.views
  | .placeholder v _ => v

/-- A JS `Map` keyed by `"YYYY-MM-DD"` strings (UTC day numbers), modelled by
its lookup function: `get` is application, `has` is `isSome`. -/
def JsMap : Type := Int → Option MapVal

/-- `map.set(k, v)`. -/
def mapSet (m : JsMap) (k : Int) (v : MapVal) : JsMap :=
  fun q => if q = k then some v else m q

/-- `new Map(entries)`: insert the entry pairs left to right, so a later
duplicate key overwrites an earlier one. -/
def mapOfEntries (es : List (Int × MapVal)) : JsMap :=
  es.foldl (fun m e => mapSet m e.1 e.2) fun _ => none

/-- `new Date(stat.date).toISOString().split('T')[0]`: the UTC-day key of a
valid date; `toISOString` throws `RangeError: Invalid time value` on an
Invalid Date. -/
def statKey (s : RawStat) : Except String Int :=
  match s.date with
  | some t => .ok (utcDay t)
  | none => .error "RangeError: Invalid time value"

/-- `data.profile.daily.map(stat => [key, stat])`: the entry array passed to
`new Map`.  `Array.prototype.map` runs the callback left to right and
propagates the first exception. -/
def statEntries : List RawStat → Except String (List (Int × MapVal))
  | [] => .ok []
  | s :: rest => do
    let k ← statKey s
    let tail ← statEntries rest
    pure ((k, MapVal.sample s) :: tail)

/-- `dailyStatsMap = new Map(data.profile.daily.map(stat => [key, stat]))`. -/
def dailyStatsMap (daily : List RawStat) : Except String JsMap := do
  let es ← statEntries daily
  pure (mapOfEntries es)

/-- The first `forEach` loop: for each window day the map has no entry for,
set a placeholder `{ views: 0, date }`. -/
def fillDays (days : List Int) (m : JsMap) : JsMap :=
  days.foldl (fun m d => if (m d).isSome then m else mapSet m d (.placeholder 0 d)) m

/-- An element `{ views, date }` of the normalized output series. -/
structure OutStat where
  views : Int
  date : Int
  deriving DecidableEq

/-- `last30DaysStats = last30Days.map(date => ({ views: dailyStatsMap.get(date).views, date }))`:
reading `.views` of `undefined` (a key missing from the map) would throw a
`TypeError`. -/
def last30DaysStats (m : JsMap) : List Int → Except String (List OutStat)
  | [] => .ok []
  | d :: rest =>
    match m d with
    | some v => do
      let tail ← last30DaysStats m rest
      pure ({ views := v.views, date := d } :: tail)
    | none => .error "TypeError: undefined has no property views"

/-- The second `forEach` loop: push `{ views: 0, date }` onto the result for
each window day still missing from the map. -/
def extraFill (m : JsMap) (days : List Int) : List OutStat :=
  days.filterMap fun d =>
    if (m d).isSome then none else some { views := 0, date := d }

/-- The whole daily-series normalization `getServerSideProps` applies to
`data.profile.daily`, given the current time value `now` and the host
timezone offset `ofs`: build the lookup map, generate the window keys, fill
missing days with placeholders, read the 30 entries back, then run the
(dead) second zero-fill loop. -/
def normalizeDaily (ofs now : Int) (daily : List RawStat) : Except String (List OutStat) := do
  let m ← dailyStatsMap daily
  let days := last30Days ofs now
  let m1 := fillDays days m
  let stats ← last30DaysStats m1 days
  pure (stats ++ extraFill m1 days)

/-- The spec's target window: the 30 calendar days `today - 29 … today` in
ascending order. -/
def targetWindow (today : Int) : List Int :=
  (List.range 30).map fun (i : Nat) => today - 29 + (i : Int)

/-- Proof-side helper: the key of a sample with a valid date (`0` for an
Invalid Date, a case the theorems using it exclude). -/
def keyOf (s : RawStat) : Int :=
  match s.date with
  | some t => utcDay t
  | none => 0

/-- Proof-side helper: the views stored at a key, `0` when the key is absent. -/
def viewsAt (m : JsMap) (d : Int) : Int :=
  match m d with
  | some v => v.views
  | none => 0

/-- Last-wins association lookup, the reference semantics of `Map.get` after
inserting a list of entries in order. -/
def lookupLast (es : List (Int × MapVal)) (k : Int) : Option MapVal :=
  es.foldl (fun acc e => if k = e.1 then some e.2 else acc) none

/-- `setDate(getDate() - k)` shifts the time value by exactly `k` days: the
day-of-month terms cancel on the linear constant-offset local timeline. -/
lemma jsSetDate_shift (ofs now k : Int) :
    jsSetDate ofs now (jsGetDate ofs now - k) = now - k * msPerDay := by
  unfold jsSetDate jsGetDate
  ring

/-- Shifting a time value by `k` whole days shifts its UTC day by `k`. -/
lemma utcDay_sub_days (t k : Int) : utcDay (t - k * msPerDay) = utcDay t - k := by
  unfold utcDay msPerDay
  omega

/-- The generated window keys are the 30 consecutive UTC days ending at the
UTC day of `now`, independently of the host offset. -/
lemma last30Days_eq (ofs now : Int) : last30Days ofs now = targetWindow (utcDay now) := by
  unfold last30Days targetWindow
  simp only [jsSetDate_shift, utcDay_sub_days]
  simp [List.range_succ]
  omega

/-- Folding `set` over entries realizes last-wins lookup, for any starting map. -/
lemma foldl_mapSet_apply (es : List (Int × MapVal)) (m : JsMap) (k : Int) :
    (es.foldl (fun m e => mapSet m e.1 e.2) m) k =
      es.foldl (fun acc e => if k = e.1 then some e.2 else acc) (m k) := by
  induction es generalizing m with
  | nil => rfl
  | cons e rest ih =>
    simp only [List.foldl_cons, ih, mapSet]

/-- `Map.get` on a map built from an entry list is last-wins lookup. -/
lemma mapOfEntries_apply (es : List (Int × MapVal)) (k : Int) :
    mapOfEntries es k = lookupLast es k := by
  unfold mapOfEntries lookupLast
  exact foldl_mapSet_apply es (fun _ => none) k

/-- Entries whose key differs from `k` leave a `lookupLast` accumulator alone. -/
lemma foldl_lookup_nomatch (k : Int) (es : List (Int × MapVal)) (acc : Option MapVal)
    (h : ∀ e ∈ es, e.1 ≠ k) :
    es.foldl (fun acc e => if k = e.1 then some e.2 else acc) acc = acc := by
  induction es generalizing acc with
  | nil => rfl
  | cons e rest ih =>
    have he : e.1 ≠ k := h e (List.mem_cons_self e rest)
    have hk : ¬ (k = e.1) := fun hkk => he hkk.symm
    simp only [List.foldl_cons, if_neg hk]
    exact ih acc fun e' he' => h e' (List.mem_cons_of_mem e he')

/-- Last-wins lookup finds the last entry carrying the key. -/
lemma lookupLast_last (k : Int) (v : MapVal) (l1 l2 : List (Int × MapVal))
    (h : ∀ e ∈ l2, e.1 ≠ k) :
    lookupLast (l1 ++ (k, v) :: l2) k = some v := by
  unfold lookupLast
  rw [List.foldl_append, List.foldl_cons, if_pos rfl]
  exact foldl_lookup_nomatch k l2 (some v) h

/-- Last-wins lookup misses when no entry carries the key. -/
lemma lookupLast_none (k : Int) (es : List (Int × MapVal))
    (h : ∀ e ∈ es, e.1 ≠ k) :
    lookupLast es k = none :=
  foldl_lookup_nomatch k es none h

/-- Last-wins lookup only depends on the entries carrying the key. -/
lemma foldl_lookup_filter (k : Int) (es : List (Int × MapVal)) (acc : Option MapVal) :
    es.foldl (fun acc e => if k = e.1 then some e.2 else acc) acc =
      (es.filter fun e => k == e.1).foldl
        (fun acc e => if k = e.1 then some e.2 else acc) acc := by
  induction es generalizing acc with
  | nil => rfl
  | cons e rest ih =>
    by_cases hk : k = e.1
    · rw [List.filter_cons, if_pos (by simpa using hk), List.foldl_cons, List.foldl_cons,
        if_pos hk]
      exact ih _
    · rw [List.filter_cons, if_neg (by simpa using hk), List.foldl_cons, if_neg hk]
      exact ih acc

/-- `lookupLast` restricted to the entries carrying the key. -/
lemma lookupLast_filter (k : Int) (es : List (Int × MapVal)) :
    lookupLast es k = lookupLast (es.filter fun e => k == e.1) k :=
  foldl_lookup_filter k es none

/-- The fill loop leaves a present key untouched and fills an absent one with
the zero-views placeholder for that day, or leaves it absent. -/
lemma fillDays_cases (days : List Int) (m : JsMap) (d : Int) :
    fillDays days m d = m d ∨
      (m d = none ∧ fillDays days m d = some (.placeholder 0 d)) := by
  induction days generalizing m with
  | nil => exact Or.inl rfl
  | cons d' rest ih =>
    unfold fillDays at ih ⊢
    simp only [List.foldl_cons]
    by_cases hs : (m d').isSome
    · simp only [if_pos hs]
      exact ih m
    · simp only [if_neg hs]
      rcases ih (mapSet m d' (.placeholder 0 d')) with hc | ⟨hnone, hc⟩
      · rw [hc]
        unfold mapSet
        by_cases hd : d = d'
        · subst hd
          refine Or.inr ⟨?_, by simp⟩
          cases hmd : m d with
          | none => rfl
          | some v => rw [hmd] at hs; simp at hs
        · simp [if_neg hd]
      · unfold mapSet at hnone
        by_cases hd : d = d'
        · subst hd
          simp at hnone
        · rw [if_neg hd] at hnone
          exact Or.inr ⟨hnone, hc⟩
/-- The fill loop keeps every already-present key present. -/
lemma fillDays_pres (days : List Int) (m : JsMap) (d : Int) (h : (m d).isSome) :
    (fillDays days m d).isSome := by
  rcases fillDays_cases days m d with hc | ⟨_, hc⟩
  · rw [hc]
    exact h
  · rw [hc]
    rfl

/-- After the fill loop every listed day is present in the map. -/
lemma fillDays_isSome_of_mem (days : List Int) (m : JsMap) (d : Int) (hd : d ∈ days) :
    (fillDays days m d).isSome := by
  induction days generalizing m with
  | nil => cases hd
  | cons d' rest ih =>
    unfold fillDays at ih ⊢
    rw [List.foldl_cons]
    rcases List.mem_cons.mp hd with hdd | hmem
    · subst hdd
      have hone : ((if (m d).isSome then m else mapSet m d (.placeholder 0 d)) d).isSome := by
        by_cases hs : (m d).isSome
        · simpa [if_pos hs] using hs
        · simp [if_neg hs, mapSet]
      have hpres := fillDays_pres rest _ d hone
      simpa [fillDays] using hpres
    · exact ih _ hmem

/-- When every sample's date is valid, the entry array is the keyed image of
the input. -/
lemma statEntries_ok (daily : List RawStat) (h : ∀ s ∈ daily, s.date ≠ none) :
    statEntries daily = .ok (daily.map fun s => (keyOf s, MapVal.sample s)) := by
  induction daily with
  | nil => rfl
  | cons s rest ih =>
    have hs : s.date ≠ none := h s (List.mem_cons_self s rest)
    cases ht : s.date with
    | none => exact absurd ht hs
    | some t =>
      have hrest := ih fun r hr => h r (List.mem_cons_of_mem s hr)
      simp only [statEntries, statKey, ht, hrest, keyOf, List.map_cons]
      rfl

/-- A sample with an Invalid Date makes the entry construction throw the
`RangeError` of `toISOString`. -/
lemma statEntries_error (daily : List RawStat) (h : ∃ s ∈ daily, s.date = none) :
    statEntries daily = .error "RangeError: Invalid time value" := by
  induction daily with
  | nil => obtain ⟨s, hs, _⟩ := h; cases hs
  | cons s rest ih =>
    cases ht : s.date with
    | none => simp only [statEntries, statKey, ht]; rfl
    | some t =>
      obtain ⟨r, hr, hrd⟩ := h
      rcases List.mem_cons.mp hr with hrs | hmem
      · subst hrs; rw [ht] at hrd; cases hrd
      · have := ih ⟨r, hmem, hrd⟩
        simp only [statEntries, statKey, ht, this]
        rfl

/-- When every listed key is present, reading the series back succeeds and
yields the looked-up views in window order. -/
lemma last30DaysStats_ok (m : JsMap) (days : List Int) (h : ∀ d ∈ days, (m d).isSome) :
    last30DaysStats m days = .ok (days.map fun d => { views := viewsAt m d, date := d }) := by
  induction days with
  | nil => rfl
  | cons d rest ih =>
    have hd := h d (List.mem_cons_self d rest)
    cases hm : m d with
    | none => rw [hm] at hd; cases hd
    | some v =>
      have hrest := ih fun x hx => h x (List.mem_cons_of_mem d hx)
      simp only [last30DaysStats, hm, hrest, viewsAt, List.map_cons]
      rfl

/-- When every listed key is present, the second zero-fill loop appends
nothing. -/
lemma extraFill_eq_nil (m : JsMap) (days : List Int) (h : ∀ d ∈ days, (m d).isSome) :
    extraFill m days = [] := by
  unfold extraFill
  induction days with
  | nil => rfl
  | cons d rest ih =>
    have hd := h d (List.mem_cons_self d rest)
    simp only [List.filterMap_cons, hd, if_pos]
    exact ih fun x hx => h x (List.mem_cons_of_mem d hx)

/-- The fill loop never changes the views read at a key: a present key keeps
its value and an absent key yields the zero-views placeholder. -/
lemma viewsAt_fill (days : List Int) (m : JsMap) (d : Int) :
    viewsAt (fillDays days m) d = viewsAt m d := by
  rcases fillDays_cases days m d with hc | ⟨hnone, hc⟩
  · unfold viewsAt
    rw [hc]
  · unfold viewsAt
    rw [hc, hnone]
    rfl

/-- Computation rule: binding a successful `Except` applies the continuation. -/
lemma exceptBind_ok {α β : Type} (a : α) (f : α → Except String β) :
    (Except.ok a >>= f) = f a := rfl

/-- Computation rule: binding a failed `Except` keeps the error. -/
lemma exceptBind_error {α β : Type} (msg : String) (f : α → Except String β) :
    ((Except.error msg : Except String α) >>= f) = .error msg := rfl

/-- Computation rule: `pure` is `Except.ok`. -/
lemma exceptPure {α : Type} (a : α) : (pure a : Except String α) = .ok a := rfl

/-- Closed form of the normalization for well-formed input: one output entry
per target window day, in order, carrying the last-wins views of that day
(`0` when the day has no sample). -/
lemma normalizeDaily_ok (ofs now : Int) (daily : List RawStat)
    (h : ∀ s ∈ daily, s.date ≠ none) :
    normalizeDaily ofs now daily =
      .ok ((targetWindow (utcDay now)).map fun d =>
        { views := viewsAt (mapOfEntries (daily.map fun s => (keyOf s, MapVal.sample s))) d,
          date := d }) := by
  have hcov : ∀ d ∈ last30Days ofs now,
      ((fillDays (last30Days ofs now)
        (mapOfEntries (daily.map fun s => (keyOf s, MapVal.sample s))) d).isSome) :=
    fun d hd => fillDays_isSome_of_mem _ _ d hd
  have hstats := last30DaysStats_ok _ _ hcov
  have hnil := extraFill_eq_nil _ _ hcov
  simp only [normalizeDaily, dailyStatsMap, statEntries_ok daily h, exceptBind_ok, exceptPure]
  rw [hstats]
  simp only [exceptBind_ok, exceptPure]
  rw [hnil]
  simp only [List.append_nil, last30Days_eq]
  congr 1
  apply List.map_congr_left
  intro d _
  rw [viewsAt_fill]

/-- A sample with an Invalid Date aborts the whole normalization with the
`RangeError` thrown by `toISOString` while the lookup entries are built. -/
lemma normalizeDaily_error (ofs now : Int) (daily : List RawStat)
    (h : ∃ s ∈ daily, s.date = none) :
    normalizeDaily ofs now daily = .error "RangeError: Invalid time value" := by
  simp only [normalizeDaily, dailyStatsMap, statEntries_error daily h, exceptBind_error]

/-- An entry of `profile.links`; only its `url` is read. -/
structure PLink where
  url : String
  deriving DecidableEq

/-- An entry of `data.links.individual`: a `url` and its `clicks` count. -/
structure LinkStat where
  url : String
  clicks : Int
  deriving DecidableEq

/-- The profile as the reshaping reads it: the five optional section arrays.
Only the length of the non-link sections matters, so they are kept as
optional lengths; `links` keeps its elements because their `url`s drive the
link filter. -/
structure ProfileData where
  links : Option (List PLink)
  milestones : Option Nat
  tags : Option Nat
  socials : Option Nat
  testimonials : Option Nat
  deriving DecidableEq

/-- `profileSections` from the source, in source order. -/
def profileSections : List String :=
  ["links", "milestones", "tags", "socials", "testimonials"]

/-- `profile[property]?.length` for each of the five section names. -/
def sectionLen (p : ProfileData) : String → Option Nat
  | "links" => p.links.map List.length
  | "milestones" => p.milestones
  | "tags" => p.tags
  | "socials" => p.socials
  | "testimonials" => p.testimonials
  | _ => none

/-- `!profile[property]?.length`: true when the section is absent (`undefined`
is falsy) or has length `0`. -/
def sectionAbsent (p : ProfileData) (name : String) : Bool :=
  match sectionLen p name with
  | none => true
  | some n => n == 0

/-- `progress.missing = profileSections.filter(property => !profile[property]?.length)`. -/
def progressMissing (p : ProfileData) : List String :=
  profileSections.filter fun name => sectionAbsent p name

/-- `progress.percentage = (((profileSections.length - missing.length) / profileSections.length) * 100).toFixed(0)`.
The JS value is an IEEE-754 double within `2 ^ -40` of the exact
`(5 - m) * 20`, and `toFixed(0)` rounds to the nearest integer, so the
rendered string is that of the exact value. -/
def progressPercentage (p : ProfileData) : String :=
  toString ((profileSections.length - (progressMissing p).length) * 20)

/-- `data.links.individual.filter(link => profile.links.some(pLink => pLink.url === link.url))`;
when `profile.links` is `undefined`, the member access on it throws a
`TypeError`. -/
def filterIndividual (plinks : Option (List PLink)) (individual : List LinkStat) :
    Except String (List LinkStat) :=
  match plinks with
  | none => .error "TypeError: profile.links is undefined"
  | some pls => .ok (individual.filter fun link => pls.any fun pl => pl.url == link.url)

/-- `totalClicks = data.links.individual.reduce((acc, link) => acc + link.clicks, 0)`,
computed on the already-filtered list. -/
def totalClicks (individual : List LinkStat) : Int :=
  individual.foldl (fun acc link => acc + link.clicks) 0

/-- The statistics payload fields the reshaping touches. -/
structure StatsData where
  individual : List LinkStat
  daily : List RawStat
  deriving DecidableEq

/-- The reshaped values `getServerSideProps` puts into the rendered props. -/
structure ReshapeOut where
  missing : List String
  percentage : String
  individual : List LinkStat
  clicks : Int
  daily : List OutStat
  deriving DecidableEq

/-- The full data reshaping of `getServerSideProps` after the fetches, in
source order: progress missing sections and percentage, link filtering, click
total, daily-series normalization. -/
def reshape (ofs now : Int) (profile : ProfileData) (stats : StatsData) :
    Except String ReshapeOut := do
  let missing := progressMissing profile
  let percentage := progressPercentage profile
  let individual ← filterIndividual profile.links stats.individual
  let clicks := totalClicks individual
  let daily ← normalizeDaily ofs now stats.daily
  pure { missing := missing, percentage := percentage, individual := individual,
         clicks := clicks, daily := daily }

/-- Stated from the spec, for comparison with the code: the section names
whose array on the profile is absent or empty. -/
def specMissingSections (p : ProfileData) : List String :=
  profileSections.filter fun name =>
    decide (sectionLen p name = none ∨ sectionLen p name = some 0)

/-- Stated from the spec, for comparison with the code: the sublist of input
samples whose (valid) calendar day lies in the trailing 30-day window. -/
def inWindowStats (now : Int) (daily : List RawStat) : List RawStat :=
  daily.filter fun s =>
    match s.date with
    | some t => (targetWindow (utcDay now)).contains (utcDay t)
    | none => false

/-- Consecutive window days differ by exactly one. -/
lemma targetWindow_chain (today : Int) :
    List.Chain' (fun a b => a + 1 = b) (targetWindow today) := by
  unfold targetWindow
  simp [List.range_succ, List.chain'_cons]
  omega

/-- The window days are pairwise distinct. -/
lemma targetWindow_nodup (today : Int) : (targetWindow today).Nodup := by
  have hlt : List.Chain' (· < ·) (targetWindow today) :=
    (targetWindow_chain today).imp fun a b hab => by omega
  have hpw : List.Pairwise (· < ·) (targetWindow today) :=
    List.chain'_iff_pairwise.mp hlt
  exact hpw.nodup

/-- The window has exactly 30 days. -/
lemma targetWindow_length (today : Int) : (targetWindow today).length = 30 := by
  rw [targetWindow, List.length_map, List.length_range]

/-- A successful normalization implies every input date was valid. -/
lemma valid_of_normalize_ok (ofs now : Int) (daily : List RawStat) (out : List OutStat)
    (h : normalizeDaily ofs now daily = .ok out) : ∀ s ∈ daily, s.date ≠ none := by
  by_contra hval
  push_neg at hval
  obtain ⟨s, hs, hd⟩ := hval
  rw [normalizeDaily_error ofs now daily ⟨s, hs, hd⟩] at h
  cases h

/-- C1: whenever `getServerSideProps` assigns a normalized series to
`data.profile.daily`, the dates of that series are exactly the 30 calendar
days `today - 29 … today`, strictly ascending with no gaps and no
duplicates. -/
theorem c1_window_dates (ofs now : Int) (daily : List RawStat) (out : List OutStat)
    (h : normalizeDaily ofs now daily = .ok out) :
    out.map OutStat.date = targetWindow (utcDay now) ∧
    List.Chain' (fun a b => a + 1 = b) (out.map OutStat.date) ∧
    (out.map OutStat.date).Nodup := by
  have hval := valid_of_normalize_ok ofs now daily out h
  rw [normalizeDaily_ok ofs now daily hval] at h
  cases h
  have hdates : (((targetWindow (utcDay now)).map fun d =>
      ({ views := viewsAt (mapOfEntries (daily.map fun s => (keyOf s, MapVal.sample s))) d,
         date := d } : OutStat)).map OutStat.date) = targetWindow (utcDay now) := by
    rw [List.map_map]
    exact List.map_id _
  exact ⟨hdates, by rw [hdates]; exact targetWindow_chain _,
    by rw [hdates]; exact targetWindow_nodup _⟩

/-- Witness for C1 at `ofs = 0`, `now = 0`, empty input. -/
theorem c1_window_dates_witness :
    (((targetWindow (utcDay 0)).map fun d => ({ views := 0, date := d } : OutStat)).map
        OutStat.date = targetWindow (utcDay 0) ∧
      List.Chain' (fun a b => a + 1 = b)
        (((targetWindow (utcDay 0)).map fun d => ({ views := 0, date := d } : OutStat)).map
          OutStat.date) ∧
      (((targetWindow (utcDay 0)).map fun d => ({ views := 0, date := d } : OutStat)).map
          OutStat.date).Nodup) :=
  c1_window_dates 0 0 [] _ (by rw [normalizeDaily_ok 0 0 [] (by simp)]; rfl)

/-- C2: for every input whose lookup map builds successfully (in particular
empty, unordered, or out-of-window inputs), the normalized series has length
exactly 30, and the second zero-fill loop appends nothing. -/
theorem c2_length_30 (ofs now : Int) (daily : List RawStat) (m : JsMap)
    (hm : dailyStatsMap daily = .ok m) :
    ∃ out, normalizeDaily ofs now daily = .ok out ∧ out.length = 30 ∧
      extraFill (fillDays (last30Days ofs now) m) (last30Days ofs now) = [] := by
  have hval : ∀ s ∈ daily, s.date ≠ none := by
    by_contra hval
    push_neg at hval
    obtain ⟨s, hs, hd⟩ := hval
    rw [dailyStatsMap, statEntries_error daily ⟨s, hs, hd⟩, exceptBind_error] at hm
    cases hm
  refine ⟨_, normalizeDaily_ok ofs now daily hval, ?_, ?_⟩
  · rw [List.length_map]
    exact targetWindow_length _
  · exact extraFill_eq_nil _ _ fun d hd => fillDays_isSome_of_mem _ _ d hd

/-- Witness for C2 at `ofs = 0`, `now = 0` and a one-sample input. -/
theorem c2_length_30_witness :
    ∃ out, normalizeDaily 0 0 [{ date := some 0, views := 5 }] = .ok out ∧
      out.length = 30 ∧
      extraFill
        (fillDays (last30Days 0 0)
          (mapOfEntries [(0, MapVal.sample { date := some 0, views := 5 })]))
        (last30Days 0 0) = [] :=
  c2_length_30 0 0 [{ date := some 0, views := 5 }]
    (mapOfEntries [(0, MapVal.sample { date := some 0, views := 5 })]) rfl

/-- C3: a sample with a valid in-window date that no later sample shadows
determines the views of the output entry for its calendar day. -/
theorem c3_last_write_wins (ofs now : Int) (daily l1 l2 : List RawStat) (s : RawStat)
    (t : Int) (hsplit : daily = l1 ++ s :: l2) (ht : s.date = some t)
    (hlast : ∀ r ∈ l2, keyOf r ≠ utcDay t)
    (hwin : utcDay t ∈ targetWindow (utcDay now))
    (hval : ∀ r ∈ daily, r.date ≠ none) :
    ∃ out, normalizeDaily ofs now daily = .ok out ∧
      ({ views := s.views, date := utcDay t } : OutStat) ∈ out ∧
      ∀ e ∈ out, e.date = utcDay t → e.views = s.views := by
  refine ⟨_, normalizeDaily_ok ofs now daily hval, ?_, ?_⟩
  all_goals
    have hkey : keyOf s = utcDay t := by rw [keyOf, ht]
    have hentries : daily.map (fun r => (keyOf r, MapVal.sample r)) =
        (l1.map fun r => (keyOf r, MapVal.sample r)) ++
          (utcDay t, MapVal.sample s) :: (l2.map fun r => (keyOf r, MapVal.sample r)) := by
      rw [hsplit, List.map_append, List.map_cons, hkey]
    have hget : mapOfEntries (daily.map fun r => (keyOf r, MapVal.sample r)) (utcDay t) =
        some (MapVal.sample s) := by
      rw [mapOfEntries_apply, hentries]
      refine lookupLast_last _ _ _ _ ?_
      intro e he
      obtain ⟨r, hr, rfl⟩ := List.mem_map.mp he
      exact hlast r hr
    have hviews : viewsAt (mapOfEntries (daily.map fun r => (keyOf r, MapVal.sample r)))
        (utcDay t) = s.views := by
      rw [viewsAt, hget]
      rfl
  · exact List.mem_map.mpr ⟨utcDay t, hwin, by rw [hviews]⟩
  · intro e he hd
    obtain ⟨d, _, rfl⟩ := List.mem_map.mp he
    simp only at hd
    rw [hd]
    simpa using hviews

/-- Witness for C3: a single in-window sample on day 0. -/
theorem c3_last_write_wins_witness :
    ∃ out, normalizeDaily 0 0 [{ date := some 0, views := 7 }] = .ok out ∧
      ({ views := 7, date := utcDay 0 } : OutStat) ∈ out ∧
      ∀ e ∈ out, e.date = utcDay 0 → e.views = 7 := by
  have h := c3_last_write_wins 0 0 [{ date := some 0, views := 7 }] []
    [] { date := some 0, views := 7 } 0 rfl rfl (by simp) (by decide) (by simp)
  simpa using h

/-- C4: a window day for which no (valid-dated) sample exists gets views `0`;
for the empty input every output entry has views `0`. -/
theorem c4_zero_fill (ofs now : Int) (daily : List RawStat) (d : Int)
    (hval : ∀ r ∈ daily, r.date ≠ none)
    (hwin : d ∈ targetWindow (utcDay now))
    (habs : ∀ r ∈ daily, keyOf r ≠ d) :
    ∃ out, normalizeDaily ofs now daily = .ok out ∧
      ({ views := 0, date := d } : OutStat) ∈ out ∧
      (∀ e ∈ out, e.date = d → e.views = 0) ∧
      (daily = [] → ∀ e ∈ out, e.views = 0) := by
  refine ⟨_, normalizeDaily_ok ofs now daily hval, ?_, ?_, ?_⟩
  all_goals
    have hget : mapOfEntries (daily.map fun r => (keyOf r, MapVal.sample r)) d = none := by
      rw [mapOfEntries_apply]
      refine lookupLast_none _ _ ?_
      intro e he
      obtain ⟨r, hr, rfl⟩ := List.mem_map.mp he
      exact habs r hr
    have hviews : viewsAt (mapOfEntries (daily.map fun r => (keyOf r, MapVal.sample r))) d = 0 := by
      rw [viewsAt, hget]
  · exact List.mem_map.mpr ⟨d, hwin, by rw [hviews]⟩
  · intro e he hd
    obtain ⟨x, _, rfl⟩ := List.mem_map.mp he
    simp only at hd
    rw [hd]
    simpa using hviews
  · intro hnil e he
    subst hnil
    obtain ⟨x, _, rfl⟩ := List.mem_map.mp he
    simp [viewsAt, mapOfEntries, lookupLast]

/-- Witness for C4: empty input, window day 0. -/
theorem c4_zero_fill_witness :
    ∃ out, normalizeDaily 0 0 [] = .ok out ∧
      ({ views := 0, date := 0 } : OutStat) ∈ out ∧
      (∀ e ∈ out, e.date = 0 → e.views = 0) ∧
      (([] : List RawStat) = [] → ∀ e ∈ out, e.views = 0) :=
  c4_zero_fill 0 0 [] 0 (by simp) (by decide) (by simp)

/-- Filtering the keyed entry list is filtering the samples by key. -/
lemma filter_map_pair (p : Int → Bool) (l : List RawStat) :
    ((l.map fun s => (keyOf s, MapVal.sample s)).filter fun e => p e.1) =
      (l.filter fun s => p (keyOf s)).map fun s => (keyOf s, MapVal.sample s) := by
  induction l with
  | nil => rfl
  | cons s rest ih =>
    simp only [List.map_cons, List.filter_cons]
    by_cases hp : p (keyOf s)
    · simp [hp, ih]
    · simp [hp, ih]

/-- For a window day, the lookup result only depends on the in-window samples. -/
lemma viewsAt_inWindow (now d : Int) (daily : List RawStat)
    (hval : ∀ r ∈ daily, r.date ≠ none) (hd : d ∈ targetWindow (utcDay now)) :
    viewsAt (mapOfEntries (daily.map fun s => (keyOf s, MapVal.sample s))) d =
      viewsAt (mapOfEntries ((inWindowStats now daily).map
        fun s => (keyOf s, MapVal.sample s))) d := by
  have hfilter : daily.filter (fun s => d == keyOf s) =
      (inWindowStats now daily).filter fun s => d == keyOf s := by
    unfold inWindowStats
    rw [List.filter_filter]
    apply List.filter_congr
    intro s hs
    cases hb : (d == keyOf s) with
    | false => rfl
    | true =>
      have hdk : d = keyOf s := eq_of_beq hb
      cases ht : s.date with
      | none => exact absurd ht (hval s hs)
      | some t =>
        have hk : keyOf s = utcDay t := by rw [keyOf, ht]
        have hmem : utcDay t ∈ targetWindow (utcDay now) := by
          rw [← hk, ← hdk]
          exact hd
        have hc : (targetWindow (utcDay now)).contains (utcDay t) = true :=
          List.elem_eq_true_of_mem hmem
        simp only [ht, hc]
        simp
  have key : ∀ l : List RawStat,
      mapOfEntries (l.map fun s => (keyOf s, MapVal.sample s)) d =
        lookupLast ((l.filter fun s => d == keyOf s).map
          fun s => (keyOf s, MapVal.sample s)) d := by
    intro l
    rw [mapOfEntries_apply, lookupLast_filter, filter_map_pair]
  unfold viewsAt
  rw [key daily, key (inWindowStats now daily), hfilter]

/-- C5: out-of-window samples neither appear in nor affect the output — two
well-formed inputs with the same in-window samples normalize identically. -/
theorem c5_out_of_window_ignored (ofs now : Int) (d1 d2 : List RawStat)
    (h1 : ∀ r ∈ d1, r.date ≠ none) (h2 : ∀ r ∈ d2, r.date ≠ none)
    (hagree : inWindowStats now d1 = inWindowStats now d2) :
    normalizeDaily ofs now d1 = normalizeDaily ofs now d2 := by
  rw [normalizeDaily_ok ofs now d1 h1, normalizeDaily_ok ofs now d2 h2]
  congr 1
  apply List.map_congr_left
  intro d hd
  rw [viewsAt_inWindow now d d1 h1 hd, viewsAt_inWindow now d d2 h2 hd, hagree]

/-- Witness for C5: the empty input and an input holding only a sample 30
days before the window normalize identically. -/
theorem c5_out_of_window_ignored_witness :
    normalizeDaily 0 0 [] =
      normalizeDaily 0 0 [{ date := some (-2592000000), views := 3 }] :=
  c5_out_of_window_ignored 0 0 [] [{ date := some (-2592000000), views := 3 }]
    (by simp) (by simp) (by rfl)

/-- C6: both key families are UTC calendar-day bucketing — the window keys do
not depend on the host offset and are the 30 UTC days ending today, and a
valid sample is keyed by the UTC day of its time value. -/
theorem c6_single_timezone (ofs ofs2 now : Int) :
    last30Days ofs now = last30Days ofs2 now ∧
    last30Days ofs now = targetWindow (utcDay now) ∧
    ∀ s : RawStat, ∀ t : Int, s.date = some t → statKey s = .ok (utcDay t) := by
  refine ⟨?_, last30Days_eq ofs now, ?_⟩
  · rw [last30Days_eq, last30Days_eq]
  · intro s t ht
    simp [statKey, ht]

/-- Witness for C6 at two distinct offsets and a concrete sample. -/
theorem c6_single_timezone_witness :
    last30Days 0 12345 = last30Days 3600000 12345 ∧
    statKey { date := some 999, views := 1 } = .ok (utcDay 999) :=
  ⟨(c6_single_timezone 0 3600000 12345).1,
   (c6_single_timezone 0 3600000 12345).2.2 _ 999 rfl⟩

/-- C7: an Invalid Date anywhere in the input aborts the whole normalization
with the `RangeError` thrown by `toISOString`, and well-formed input always
normalizes successfully. -/
theorem c7_invalid_date_rejected (ofs now : Int) (daily : List RawStat) :
    ((∃ s ∈ daily, s.date = none) →
      normalizeDaily ofs now daily = .error "RangeError: Invalid time value") ∧
    ((∀ s ∈ daily, s.date ≠ none) → ∃ out, normalizeDaily ofs now daily = .ok out) :=
  ⟨fun h => normalizeDaily_error ofs now daily h,
   fun h => ⟨_, normalizeDaily_ok ofs now daily h⟩⟩

/-- Witness for C7: one invalid-dated sample errors, one valid sample
succeeds. -/
theorem c7_invalid_date_rejected_witness :
    normalizeDaily 0 0 [{ date := none, views := 3 }] =
      .error "RangeError: Invalid time value" ∧
    ∃ out, normalizeDaily 0 0 [{ date := some 0, views := 2 }] = .ok out :=
  ⟨(c7_invalid_date_rejected 0 0 _).1 ⟨{ date := none, views := 3 }, by simp, rfl⟩,
   (c7_invalid_date_rejected 0 0 _).2 (by simp)⟩

/-- C8: the reshaping is a pure function of the profile data, the statistics
data and the current instant — equal inputs give equal props. -/
theorem c8_reshape_deterministic (ofs now : Int) (p1 p2 : ProfileData)
    (s1 s2 : StatsData) (hp : p1 = p2) (hs : s1 = s2) :
    reshape ofs now p1 s1 = reshape ofs now p2 s2 := by
  rw [hp, hs]

/-- Witness for C8 at a concrete profile and statistics payload. -/
theorem c8_reshape_deterministic_witness :
    reshape 0 0
        { links := some [{ url := "a" }], milestones := some 1, tags := none,
          socials := some 0, testimonials := none }
        { individual := [{ url := "a", clicks := 2 }], daily := [] } =
      reshape 0 0
        { links := some [{ url := "a" }], milestones := some 1, tags := none,
          socials := some 0, testimonials := none }
        { individual := [{ url := "a", clicks := 2 }], daily := [] } :=
  c8_reshape_deterministic 0 0 _ _ _ _ rfl rfl

/-- C9: `progress.missing` is exactly the (ordered) sublist of the five
section names whose array is absent or empty, and `progress.percentage` is
the zero-decimal rendering of `((5 - missing) / 5) * 100`, hence one of
`"0"`, `"20"`, `"40"`, `"60"`, `"80"`, `"100"`. -/
theorem c9_progress_sections (p : ProfileData) :
    progressMissing p = specMissingSections p ∧
    List.Sublist (progressMissing p) profileSections ∧
    progressPercentage p =
      toString ((profileSections.length - (progressMissing p).length) * 20) ∧
    progressPercentage p ∈ ["0", "20", "40", "60", "80", "100"] := by
  have hspec : progressMissing p = specMissingSections p := by
    unfold progressMissing specMissingSections
    apply List.filter_congr
    intro name _
    unfold sectionAbsent
    cases h : sectionLen p name with
    | none => simp
    | some n =>
      cases n with
      | zero => simp
      | succ k => simp
  refine ⟨hspec, by unfold progressMissing; exact List.filter_sublist _, rfl, ?_⟩
  have hle : (progressMissing p).length ≤ 5 := by
    have hf := List.length_filter_le (fun name => sectionAbsent p name) profileSections
    simpa [progressMissing, profileSections] using hf
  unfold progressPercentage
  set n := (progressMissing p).length with hn
  interval_cases n <;> decide

/-- C10: every retained link matches a profile link url, unmatched links are
removed, and the click total is the sum of the retained clicks. -/
theorem c10_links_filtered_total (pls : List PLink) (individual kept : List LinkStat)
    (h : filterIndividual (some pls) individual = .ok kept) :
    (∀ l ∈ kept, ∃ pl ∈ pls, pl.url = l.url) ∧
    (∀ l ∈ individual, (∀ pl ∈ pls, pl.url ≠ l.url) → l ∉ kept) ∧
    totalClicks kept = (kept.map LinkStat.clicks).sum := by
  have hk : kept = individual.filter fun link => pls.any fun pl => pl.url == link.url := by
    unfold filterIndividual at h
    exact (Except.ok.inj h).symm
  subst hk
  refine ⟨?_, ?_, ?_⟩
  · intro l hl
    have hp := (List.mem_filter.mp hl).2
    obtain ⟨pl, hpl, hb⟩ := List.any_eq_true.mp hp
    exact ⟨pl, hpl, eq_of_beq hb⟩
  · intro l _ hnone hmem
    have hp := (List.mem_filter.mp hmem).2
    obtain ⟨pl, hpl, hb⟩ := List.any_eq_true.mp hp
    exact hnone pl hpl (eq_of_beq hb)
  · unfold totalClicks
    rw [List.sum_eq_foldl, List.foldl_map]

/-- Witness for C10: one matching and one unmatched link. -/
theorem c10_links_filtered_total_witness :
    (∀ l ∈ [({ url := "a", clicks := 5 } : LinkStat)],
      ∃ pl ∈ [({ url := "a" } : PLink)], pl.url = l.url) ∧
    (∀ l ∈ [({ url := "a", clicks := 5 } : LinkStat), { url := "b", clicks := 2 }],
      (∀ pl ∈ [({ url := "a" } : PLink)], pl.url ≠ l.url) →
        l ∉ [({ url := "a", clicks := 5 } : LinkStat)]) ∧
    totalClicks [({ url := "a", clicks := 5 } : LinkStat)] =
      ([({ url := "a", clicks := 5 } : LinkStat)].map LinkStat.clicks).sum :=
  c10_links_filtered_total [{ url := "a" }]
    [{ url := "a", clicks := 5 }, { url := "b", clicks := 2 }]
    [{ url := "a", clicks := 5 }] rfl
